import Mathlib

/- A shallow embedding of the 1BRC aggregation program (src/main.cpp) and
   proofs of the specified properties.

   Modelling conventions:
   * IEEE `float` arithmetic is modelled by exact rational arithmetic (`ℚ`);
     `uint64_t` counters are modelled by `Nat` (no property below involves
     integer wrap-around).
   * Byte buffers and C strings are modelled as `List Char`.
   * `parse_float` reads its first byte before any bounds check; an
     out-of-bounds read is modelled by returning `none`.
   * `std::unordered_map` is modelled as an association list whose iteration
     order is the key insertion order (the C++ container's iteration order is
     unspecified and in particular not sorted); `operator[]` is `updateTable`,
     which applies an update to the existing entry or to a freshly
     default-initialised one.
-/

namespace OneBRC

/-- Per-key statistics, translated from `struct locationData` (main.cpp 14-19). -/
@[ext]
structure locationData where
  count : Nat
  total : ℚ
  temp_min : ℚ
  temp_max : ℚ
deriving DecidableEq

/-- Default-constructed `locationData`: `count = 0`, `total = 0`,
`temp_min = 99`, `temp_max = -99` (the in-class initialisers, main.cpp 14-19). -/
def locationData.init : locationData := ⟨0, 0, 99, -99⟩

/-- The value of `str[i] - '0'` cast to the accumulator type (main.cpp 40, 49). -/
def digitVal (c : Char) : ℚ := (c.toNat : ℚ) - (('0').toNat : ℚ)

/-- The integer-part loop of `parse_float` (main.cpp 38-42): consume characters
while the cursor is in range and the character is not a point, accumulating
`result * 10 + digit`; returns the accumulator and the unconsumed suffix. -/
def intLoop : List Char → ℚ → ℚ × List Char
  | [], result => (result, [])
  | c :: rest, result =>
    if c = '.' then (result, c :: rest)
    else intLoop rest (result * 10 + digitVal c)

/-- The fraction-part loop of `parse_float` (main.cpp 47-52): for each remaining
character, first decay the factor by `0.1` and then add `digit * factor`. -/
def fracLoop : List Char → ℚ → ℚ → ℚ
  | [], _, result => result
  | c :: rest, fraction, result =>
    fracLoop rest (fraction * (1 / 10)) (result + digitVal c * (fraction * (1 / 10)))

/-- `parse_float` (main.cpp 27-56).  The C code reads `str[0]` (the minus-sign
check) before consulting `len`, so on an empty span it performs an
out-of-bounds access; that access is modelled by `none`.  All other reads are
guarded by `i < len`, which the structural recursion of `intLoop`/`fracLoop`
reflects. -/
def parse_float : List Char → Option ℚ
  | [] => none
  | c :: rest =>
    let body := if c = '-' then rest else c :: rest
    let p := intLoop body 0
    let result := if p.2.head? = some '.' then fracLoop p.2.tail 1 p.1 else p.1
    some (if c = '-' then -result else result)

/-- The positional value of a digit string (the mathematical value of the
integer part of a decimal literal). -/
def natOfDigits (ds : List Char) : ℚ :=
  ds.foldl (fun r c => r * 10 + digitVal c) 0

/-- The exact value of the decimal literal with sign `neg`, integer digits `ds`
and fractional digits `fs`. -/
def decimalValue (neg : Bool) (ds fs : List Char) : ℚ :=
  (if neg then -1 else 1) * (natOfDigits ds + natOfDigits fs / 10 ^ fs.length)

/-- Decision procedure for the value grammar stated in the specification:
optional leading minus, zero or more digits, optional single point, zero or
more digits.  (Spec-side definition, used to exhibit grammar membership of
concrete spans.) -/
def digitsPointDigits (s : List Char) : Bool :=
  match s.dropWhile Char.isDigit with
  | [] => true
  | '.' :: fs => fs.all Char.isDigit
  | _ => false

/-- Grammar matcher including the optional leading minus. -/
def grammarMatch : List Char → Bool
  | '-' :: r => digitsPointDigits r
  | s => digitsPointDigits s

/-- The aggregation table: `std::unordered_map<std::string, locationData>`
modelled as an association list in key-insertion order. -/
abbrev Table := List (List Char × locationData)

/-- `unordered_map::find`-style lookup. -/
def lookupKey : Table → List Char → Option locationData
  | [], _ => none
  | (k', v) :: rest, k => if k' = k then some v else lookupKey rest k

/-- The effect of `loc_data[key]` followed by an in-place update `f`:
update the existing entry, or append a default-initialised entry updated by
`f` when the key is absent. -/
def updateTable (t : Table) (k : List Char) (f : locationData → locationData) : Table :=
  match t with
  | [] => [(k, f locationData.init)]
  | (k', v) :: rest => if k' = k then (k', f v) :: rest else (k', v) :: updateTable rest k f

/-- The per-record statistics update of `process_line` (main.cpp 70-78):
increment the count, add the value to the total, and update max/min by
comparison. -/
def updateStats (v : ℚ) (d : locationData) : locationData :=
  { count := d.count + 1
    total := d.total + v
    temp_min := if d.temp_min > v then v else d.temp_min
    temp_max := if d.temp_max < v then v else d.temp_max }

/-- `line.find(';')` plus the two `substr`s of `process_line` (main.cpp 63-67):
`none` when the line has no delimiter, otherwise the key before the first `;`
and the value span after it. -/
def splitAtDelim : List Char → Option (List Char × List Char)
  | [] => none
  | c :: rest =>
    if c = ';' then some ([], rest)
    else
      match splitAtDelim rest with
      | none => none
      | some (k, v) => some (c :: k, v)

/-- `process_line` (main.cpp 63-79).  A line with no delimiter is skipped.
For an empty value span the C code's `parse_float` reads one byte beyond the
span, but returns `±0.0` regardless of that byte's content (both loops are
bounds-guarded and never run when `len = 0`), so the update value is modelled
as `0` in that case. -/
def process_line (line : List Char) (t : Table) : Table :=
  match splitAtDelim line with
  | none => t
  | some (location, valSpan) =>
      updateTable t location (updateStats ((parse_float valSpan).getD 0))

/-- The byte range `[i, j)` of a buffer. -/
def slice (data : List Char) (i j : Nat) : List Char := (data.drop i).take (j - i)

/-- Fuel-indexed form of the inner scan of `process_chunk` (main.cpp 91-93).
The C `while` loop increments `i` towards `e` on every iteration, so the
remaining distance `e - i` strictly decreases; it serves as the structural
fuel. -/
def scanNewlineFuel (data : List Char) (e : Nat) : Nat → Nat → Nat
  | 0, i => i
  | fuel + 1, i =>
    if i < e ∧ data.getD i '\n' ≠ '\n' then scanNewlineFuel data e fuel (i + 1) else i

/-- The inner scan of `process_chunk` (main.cpp 91-93): starting at `i`,
advance while `i < e` and `data[i] != '\n'`; returns the stopping index. -/
def scanNewline (data : List Char) (e i : Nat) : Nat :=
  scanNewlineFuel data e (e - i) i

theorem scanNewlineFuel_congr (data : List Char) (e : Nat) :
    ∀ (f1 f2 i : Nat), e - i ≤ f1 → e - i ≤ f2 →
      scanNewlineFuel data e f1 i = scanNewlineFuel data e f2 i := by
  intro f1
  induction f1 with
  | zero =>
    intro f2 i h1 _
    cases f2 with
    | zero => rfl
    | succ f2 =>
      show i = if i < e ∧ data.getD i '\n' ≠ '\n' then scanNewlineFuel data e f2 (i + 1) else i
      rw [if_neg (fun hh => absurd hh.1 (by omega))]
  | succ f1 ih =>
    intro f2 i h1 h2
    cases f2 with
    | zero =>
      show (if i < e ∧ data.getD i '\n' ≠ '\n' then scanNewlineFuel data e f1 (i + 1) else i) = i
      rw [if_neg (fun hh => absurd hh.1 (by omega))]
    | succ f2 =>
      show (if i < e ∧ data.getD i '\n' ≠ '\n' then scanNewlineFuel data e f1 (i + 1) else i)
        = (if i < e ∧ data.getD i '\n' ≠ '\n' then scanNewlineFuel data e f2 (i + 1) else i)
      by_cases h : i < e ∧ data.getD i '\n' ≠ '\n'
      · rw [if_pos h, if_pos h]
        exact ih f2 (i + 1) (by omega) (by omega)
      · rw [if_neg h, if_neg h]

theorem scanNewline_unfold (data : List Char) (e i : Nat) :
    scanNewline data e i =
      if i < e ∧ data.getD i '\n' ≠ '\n' then scanNewline data e (i + 1) else i := by
  by_cases h : i < e ∧ data.getD i '\n' ≠ '\n'
  · rw [if_pos h]
    unfold scanNewline
    have he : e - i = (e - (i + 1)) + 1 := by omega
    rw [he]
    show (if i < e ∧ data.getD i '\n' ≠ '\n'
        then scanNewlineFuel data e (e - (i + 1)) (i + 1) else i)
      = scanNewlineFuel data e (e - (i + 1)) (i + 1)
    rw [if_pos h]
  · rw [if_neg h]
    unfold scanNewline
    cases hei : e - i with
    | zero => rfl
    | succ f =>
      show (if i < e ∧ data.getD i '\n' ≠ '\n' then scanNewlineFuel data e f (i + 1) else i) = i
      rw [if_neg h]

theorem scanNewline_ge (data : List Char) (e i : Nat) : i ≤ scanNewline data e i := by
  have H : ∀ n i, e - i ≤ n → i ≤ scanNewline data e i := by
    intro n
    induction n with
    | zero =>
      intro i hi
      rw [scanNewline_unfold, if_neg (fun hh => absurd hh.1 (by omega))]
    | succ n ih =>
      intro i hi
      rw [scanNewline_unfold]
      by_cases h : i < e ∧ data.getD i '\n' ≠ '\n'
      · rw [if_pos h]
        exact Nat.le_trans (Nat.le_succ i) (ih (i + 1) (by omega))
      · rw [if_neg h]
  exact H (e - i) i (Nat.le_refl _)

/-- Fuel-indexed form of `process_chunk` (main.cpp 88-98); the cursor moves
strictly forward each outer iteration, so `e - i` is structural fuel. -/
def process_chunkFuel (data : List Char) (e : Nat) : Nat → Nat → Table → Table
  | 0, _, t => t
  | fuel + 1, i, t =>
    if i < e then
      process_chunkFuel data e fuel (scanNewline data e i + 1)
        (process_line (slice data i (scanNewline data e i)) t)
    else t

/-- `process_chunk` (main.cpp 88-98): repeatedly scan to the next newline or
to `e`, hand the scanned line to `process_line`, and skip the newline. -/
def process_chunk (data : List Char) (i e : Nat) (t : Table) : Table :=
  process_chunkFuel data e (e - i) i t

theorem process_chunkFuel_congr (data : List Char) (e : Nat) :
    ∀ (f1 f2 i : Nat) (t : Table), e - i ≤ f1 → e - i ≤ f2 →
      process_chunkFuel data e f1 i t = process_chunkFuel data e f2 i t := by
  intro f1
  induction f1 with
  | zero =>
    intro f2 i t h1 _
    cases f2 with
    | zero => rfl
    | succ f2 =>
      show t = if i < e then process_chunkFuel data e f2 (scanNewline data e i + 1)
          (process_line (slice data i (scanNewline data e i)) t) else t
      rw [if_neg (by omega)]
  | succ f1 ih =>
    intro f2 i t h1 h2
    cases f2 with
    | zero =>
      show (if i < e then process_chunkFuel data e f1 (scanNewline data e i + 1)
          (process_line (slice data i (scanNewline data e i)) t) else t) = t
      rw [if_neg (by omega)]
    | succ f2 =>
      show (if i < e then process_chunkFuel data e f1 (scanNewline data e i + 1)
          (process_line (slice data i (scanNewline data e i)) t) else t)
        = (if i < e then process_chunkFuel data e f2 (scanNewline data e i + 1)
          (process_line (slice data i (scanNewline data e i)) t) else t)
      by_cases h : i < e
      · rw [if_pos h, if_pos h]
        have hge := scanNewline_ge data e i
        exact ih f2 _ _ (by omega) (by omega)
      · rw [if_neg h, if_neg h]

theorem process_chunk_unfold (data : List Char) (i e : Nat) (t : Table) :
    process_chunk data i e t =
      if i < e then
        process_chunk data (scanNewline data e i + 1) e
          (process_line (slice data i (scanNewline data e i)) t)
      else t := by
  by_cases h : i < e
  · rw [if_pos h]
    unfold process_chunk
    have he : e - i = (e - (i + 1)) + 1 := by omega
    rw [he]
    show (if i < e then process_chunkFuel data e (e - (i + 1)) (scanNewline data e i + 1)
        (process_line (slice data i (scanNewline data e i)) t) else t)
      = process_chunkFuel data e (e - (scanNewline data e i + 1)) (scanNewline data e i + 1)
        (process_line (slice data i (scanNewline data e i)) t)
    rw [if_pos h]
    have hge := scanNewline_ge data e i
    exact process_chunkFuel_congr data e _ _ _ _ (by omega) (by omega)
  · rw [if_neg h]
    unfold process_chunk
    cases hei : e - i with
    | zero => rfl
    | succ f =>
      show (if i < e then process_chunkFuel data e f (scanNewline data e i + 1)
          (process_line (slice data i (scanNewline data e i)) t) else t) = t
      rw [if_neg h]

/-- The maximal newline-free segments of a buffer, as described by the
specification of the line splitter: each line extends to the next newline or
to the end, the newline itself is excluded and consumed, and a final line
lacking a trailing newline is still produced.  (Spec-side reference
definition.) -/
def linesOfContent : List Char → List (List Char)
  | [] => []
  | c :: cs =>
    if c = '\n' then [] :: linesOfContent cs
    else
      match linesOfContent cs with
      | [] => [[c]]
      | l :: ls => (c :: l) :: ls

/-- The chunk ranges computed by `main` (main.cpp 133-140): `chunk_size = L / N`
by integer division, worker `i` gets `[i * chunk_size, (i+1) * chunk_size)` and
the last worker's end is forced to `L`. -/
def chunkRanges (L N : Nat) : List (Nat × Nat) :=
  (List.range N).map
    (fun i => (i * (L / N), if i = N - 1 then L else (i + 1) * (L / N)))

/-- The per-key merge performed when a worker's table is folded into the
global table (main.cpp 149-156): add counts and totals, and update max/min by
comparison. -/
def mergeStats (a b : locationData) : locationData :=
  { count := a.count + b.count
    total := a.total + b.total
    temp_min := if a.temp_min > b.temp_min then b.temp_min else a.temp_min
    temp_max := if a.temp_max < b.temp_max then b.temp_max else a.temp_max }

/-- Folding one worker table into the global table (main.cpp 147-157): for
each entry of the worker table, `loc_data[key]` default-inserts and the entry
is merged in. -/
def mergeTable (global worker : Table) : Table :=
  worker.foldl (fun g kv => updateTable g kv.1 (fun cur => mergeStats cur kv.2)) global

/-- Merging all worker tables into the (initially empty) global table. -/
def mergeAll (ts : List Table) : Table := ts.foldl mergeTable []

/-- The private tables produced by the workers: each worker runs
`process_chunk` on its assigned range, starting from an empty local table
(main.cpp 141-145). -/
def workerTables (data : List Char) (N : Nat) : List Table :=
  (chunkRanges data.length N).map (fun r => process_chunk data r.1 r.2 [])

/-- The full aggregation pipeline of `main` for worker count `N`: chunk, run
the workers, merge.  (Merging is modelled in worker order; the merge-order
invariance proved below justifies this for the nondeterministic real
schedule.) -/
def runProgram (data : List Char) (N : Nat) : Table :=
  mergeAll (workerTables data N)

/-- The keys of the report lines in emission order: the report loop
(main.cpp 174-182) emits exactly one line per entry of `loc_data`, in table
iteration order. -/
def reportKeys (t : Table) : List (List Char) := t.map Prod.fst

/-- Lexicographic strict order on keys (`std::string::operator<`); spec-side
notion used to state sortedness of the report. -/
def strLt : List Char → List Char → Bool
  | [], [] => false
  | [], _ :: _ => true
  | _ :: _, [] => false
  | a :: as, b :: bs => if a < b then true else if b < a then false else strLt as bs

/-- A list of keys is sorted when each key is lexicographically below all
later ones. -/
def sortedLex (l : List (List Char)) : Prop :=
  l.Pairwise (fun a b => strLt a b = true)

instance (l : List (List Char)) : Decidable (sortedLex l) := by
  unfold sortedLex; infer_instance

/-- Well-formedness of a table: its keys are pairwise distinct (as holds for
any `std::unordered_map`). -/
def WFTable (t : Table) : Prop := (t.map Prod.fst).Nodup

instance (t : Table) : Decidable (WFTable t) := by
  unfold WFTable; infer_instance

/-- A parsed record: a key and a numeric value. -/
abbrev Record := List Char × ℚ

/-- The table update for one already-parsed record (the body of `process_line`
after parsing, main.cpp 69-78). -/
def processRecord (t : Table) (r : Record) : Table :=
  updateTable t r.1 (updateStats r.2)

/-- One sequential aggregation pass over a list of records, starting from an
empty table. -/
def aggregate (rs : List Record) : Table := rs.foldl processRecord []

/-- The statistics accumulated for a single key from the list of values
observed for it, starting from the default-initialised record. -/
def statsOf (vs : List ℚ) : locationData :=
  vs.foldl (fun d v => updateStats v d) locationData.init

/-- The values carried by the records of `rs` whose key is `k`, in order. -/
def valuesOf : List Record → List Char → List ℚ
  | [], _ => []
  | r :: rs, k => if r.1 = k then r.2 :: valuesOf rs k else valuesOf rs k

/-- The per-key content of a table as a function of the observed values:
no entry when no value was observed, the accumulated statistics otherwise. -/
def oStats : List ℚ → Option locationData
  | [] => none
  | v :: vs => some (statsOf (v :: vs))

/-- The per-key effect of one record update on an optional table entry. -/
def oUpd (o : Option locationData) (v : ℚ) : Option locationData :=
  some (updateStats v (o.getD locationData.init))

/-- The per-key effect of merging a worker entry into an optional global
entry. -/
def oMerge (a b : Option locationData) : Option locationData :=
  match b with
  | none => a
  | some d => some (mergeStats (a.getD locationData.init) d)

theorem if_lt_eq_max (a b : ℚ) : (if a < b then b else a) = max a b := by
  rcases lt_or_le a b with h | h
  · simp [if_pos h, max_eq_right h.le]
  · simp [if_neg (not_lt.mpr h), max_eq_left h]

theorem if_gt_eq_min (a b : ℚ) : (if a > b then b else a) = min a b := by
  rcases lt_or_le b a with h | h
  · simp [if_pos h, min_eq_right h.le]
  · simp [if_neg (not_lt.mpr h), min_eq_left h]

theorem updateStats_eq (v : ℚ) (d : locationData) :
    updateStats v d = ⟨d.count + 1, d.total + v, min d.temp_min v, max d.temp_max v⟩ := by
  unfold updateStats
  rw [if_gt_eq_min, if_lt_eq_max]

theorem mergeStats_eq (a b : locationData) :
    mergeStats a b =
      ⟨a.count + b.count, a.total + b.total,
        min a.temp_min b.temp_min, max a.temp_max b.temp_max⟩ := by
  unfold mergeStats
  rw [if_gt_eq_min, if_lt_eq_max]

theorem mergeStats_comm (a b : locationData) : mergeStats a b = mergeStats b a := by
  simp only [mergeStats_eq, locationData.mk.injEq]
  exact ⟨Nat.add_comm _ _, add_comm _ _, min_comm _ _, max_comm _ _⟩

theorem mergeStats_assoc (a b c : locationData) :
    mergeStats (mergeStats a b) c = mergeStats a (mergeStats b c) := by
  simp only [mergeStats_eq, locationData.mk.injEq]
  exact ⟨Nat.add_assoc _ _ _, add_assoc _ _ _, min_assoc _ _ _, max_assoc _ _ _⟩

theorem updateStats_left_comm (d : locationData) (v w : ℚ) :
    updateStats w (updateStats v d) = updateStats v (updateStats w d) := by
  simp only [updateStats_eq, locationData.mk.injEq]
  refine ⟨trivial, add_right_comm _ _ _, min_right_comm _ _ _, ?_⟩
  rw [max_assoc, max_comm v w, ← max_assoc]

theorem foldl_pull (f : ℚ → ℚ → ℚ) (hassoc : ∀ a b c, f (f a b) c = f a (f b c))
    (l : List ℚ) : ∀ x y : ℚ, l.foldl f (f x y) = f x (l.foldl f y) := by
  induction l with
  | nil => intro x y; rfl
  | cons c l ih =>
    intro x y
    simp only [List.foldl_cons]
    rw [hassoc, ih]

theorem foldl_min_le (l : List ℚ) : ∀ x : ℚ, l.foldl min x ≤ x := by
  induction l with
  | nil => intro x; exact le_refl x
  | cons c l ih => intro x; exact le_trans (ih (min x c)) (min_le_left x c)

theorem le_foldl_max (l : List ℚ) : ∀ x : ℚ, x ≤ l.foldl max x := by
  induction l with
  | nil => intro x; exact le_refl x
  | cons c l ih => intro x; exact le_trans (le_max_left x c) (ih (max x c))

theorem foldl_min_le_mem (l : List ℚ) : ∀ (x v : ℚ), v ∈ l → l.foldl min x ≤ v := by
  induction l with
  | nil => intro x v hv; cases hv
  | cons c l ih =>
    intro x v hv
    rcases List.mem_cons.mp hv with h | h
    · subst h; exact le_trans (foldl_min_le l (min x v)) (min_le_right x v)
    · exact ih (min x c) v h

theorem mem_le_foldl_max (l : List ℚ) : ∀ (x v : ℚ), v ∈ l → v ≤ l.foldl max x := by
  induction l with
  | nil => intro x v hv; cases hv
  | cons c l ih =>
    intro x v hv
    rcases List.mem_cons.mp hv with h | h
    · subst h; exact le_trans (le_max_right x v) (le_foldl_max l (max x v))
    · exact ih (max x c) v h

theorem foldUpd_count (vs : List ℚ) : ∀ d : locationData,
    (vs.foldl (fun d v => updateStats v d) d).count = d.count + vs.length := by
  induction vs with
  | nil => intro d; rfl
  | cons v vs ih =>
    intro d
    simp only [List.foldl_cons]
    rw [ih, updateStats_eq]
    dsimp only
    simp only [List.length_cons]
    omega

theorem foldUpd_total (vs : List ℚ) : ∀ d : locationData,
    (vs.foldl (fun d v => updateStats v d) d).total = vs.foldl (· + ·) d.total := by
  induction vs with
  | nil => intro d; rfl
  | cons v vs ih =>
    intro d
    simp only [List.foldl_cons]
    rw [ih, updateStats_eq]

theorem foldUpd_min (vs : List ℚ) : ∀ d : locationData,
    (vs.foldl (fun d v => updateStats v d) d).temp_min = vs.foldl min d.temp_min := by
  induction vs with
  | nil => intro d; rfl
  | cons v vs ih =>
    intro d
    simp only [List.foldl_cons]
    rw [ih, updateStats_eq]

theorem foldUpd_max (vs : List ℚ) : ∀ d : locationData,
    (vs.foldl (fun d v => updateStats v d) d).temp_max = vs.foldl max d.temp_max := by
  induction vs with
  | nil => intro d; rfl
  | cons v vs ih =>
    intro d
    simp only [List.foldl_cons]
    rw [ih, updateStats_eq]

theorem statsOf_count (vs : List ℚ) : (statsOf vs).count = vs.length := by
  unfold statsOf
  rw [foldUpd_count]
  show 0 + vs.length = vs.length
  omega

theorem statsOf_total (vs : List ℚ) : (statsOf vs).total = vs.foldl (· + ·) 0 :=
  foldUpd_total vs locationData.init

theorem statsOf_min (vs : List ℚ) : (statsOf vs).temp_min = vs.foldl min 99 :=
  foldUpd_min vs locationData.init

theorem statsOf_max (vs : List ℚ) : (statsOf vs).temp_max = vs.foldl max (-99) :=
  foldUpd_max vs locationData.init

theorem statsOf_append (vs ws : List ℚ) :
    statsOf (vs ++ ws) = mergeStats (statsOf vs) (statsOf ws) := by
  apply locationData.ext
  · rw [statsOf_count, mergeStats_eq]
    simp [statsOf_count, List.length_append]
  · rw [statsOf_total, mergeStats_eq]
    simp only [List.foldl_append]
    have h0 : (vs.foldl (· + ·) (0 : ℚ)) = (vs.foldl (· + ·) (0 : ℚ)) + 0 := by ring
    rw [h0, foldl_pull _ add_assoc]
    simp [statsOf_total]
  · rw [statsOf_min, mergeStats_eq]
    simp only [List.foldl_append]
    have h0 : (vs.foldl min (99 : ℚ)) = min (vs.foldl min (99 : ℚ)) 99 :=
      (min_eq_left (foldl_min_le vs 99)).symm
    rw [h0, foldl_pull _ min_assoc]
    simp [statsOf_min]
  · rw [statsOf_max, mergeStats_eq]
    simp only [List.foldl_append]
    have h0 : (vs.foldl max (-99 : ℚ)) = max (vs.foldl max (-99 : ℚ)) (-99) :=
      (max_eq_left (le_foldl_max vs (-99))).symm
    rw [h0, foldl_pull _ max_assoc]
    simp [statsOf_max]

theorem mergeStats_init_statsOf (vs : List ℚ) :
    mergeStats locationData.init (statsOf vs) = statsOf vs := by
  apply locationData.ext
  · rw [mergeStats_eq]
    show locationData.init.count + (statsOf vs).count = (statsOf vs).count
    exact Nat.zero_add _
  · rw [mergeStats_eq]
    show locationData.init.total + (statsOf vs).total = (statsOf vs).total
    exact zero_add _
  · rw [mergeStats_eq]
    show min (99 : ℚ) (statsOf vs).temp_min = _
    rw [statsOf_min]
    exact min_eq_right (foldl_min_le vs 99)
  · rw [mergeStats_eq]
    show max (-99 : ℚ) (statsOf vs).temp_max = _
    rw [statsOf_max]
    exact max_eq_right (le_foldl_max vs (-99))

theorem foldl_perm_of_comm {α β : Type _} (f : β → α → β)
    (hf : ∀ b x y, f (f b x) y = f (f b y) x) :
    ∀ {l l' : List α}, l.Perm l' → ∀ b, l.foldl f b = l'.foldl f b := by
  intro l l' h
  induction h with
  | nil => intro b; rfl
  | cons x _ ih => intro b; simp only [List.foldl_cons]; exact ih _
  | swap x y l => intro b; simp only [List.foldl_cons]; rw [hf]
  | trans _ _ ih₁ ih₂ => intro b; rw [ih₁, ih₂]

theorem statsOf_perm {vs ws : List ℚ} (h : vs.Perm ws) : statsOf vs = statsOf ws :=
  foldl_perm_of_comm (fun d v => updateStats v d)
    (fun d v w => updateStats_left_comm d v w) h locationData.init

theorem oStats_perm {vs ws : List ℚ} (h : vs.Perm ws) : oStats vs = oStats ws := by
  cases vs with
  | nil =>
    have : ws = [] := h.symm.eq_nil
    subst this; rfl
  | cons v vs =>
    cases ws with
    | nil => exact absurd h.eq_nil (by simp)
    | cons w ws =>
      show some (statsOf (v :: vs)) = some (statsOf (w :: ws))
      rw [statsOf_perm h]

theorem lookupKey_updateTable (t : Table) (k k' : List Char) (f : locationData → locationData) :
    lookupKey (updateTable t k f) k' =
      if k' = k then some (f ((lookupKey t k).getD locationData.init))
      else lookupKey t k' := by
  induction t with
  | nil =>
    by_cases h : k' = k
    · subst h
      simp [updateTable, lookupKey]
    · have h2 : ¬(k = k') := fun hh => h hh.symm
      simp [updateTable, lookupKey, h, h2]
  | cons p rest ih =>
    obtain ⟨a, v⟩ := p
    by_cases hak : a = k
    · subst hak
      by_cases h : k' = a
      · subst h
        simp [updateTable, lookupKey]
      · have h2 : ¬(a = k') := fun hh => h hh.symm
        simp [updateTable, lookupKey, h, h2]
    · by_cases h : k' = a
      · subst h
        simp [updateTable, lookupKey, hak]
      · have h2 : ¬(a = k') := fun hh => h hh.symm
        simp [updateTable, lookupKey, hak, h2, ih]

theorem lookupKey_eq_none (t : Table) (k : List Char) (h : k ∉ t.map Prod.fst) :
    lookupKey t k = none := by
  induction t with
  | nil => rfl
  | cons p rest ih =>
    obtain ⟨a, v⟩ := p
    have ha : ¬(a = k) := by
      intro hh
      apply h
      subst hh
      exact List.mem_map_of_mem Prod.fst (List.mem_cons_self _ _)
    rw [lookupKey, if_neg ha]
    refine ih (fun hm => h ?_)
    rw [List.map_cons]
    exact List.mem_cons_of_mem _ hm

theorem lookupKey_mem (t : Table) (k : List Char) (d : locationData)
    (h : lookupKey t k = some d) : (k, d) ∈ t := by
  induction t with
  | nil => cases h
  | cons p rest ih =>
    obtain ⟨a, v⟩ := p
    rw [lookupKey] at h
    by_cases hak : a = k
    · rw [if_pos hak] at h
      injection h with h2
      subst hak
      subst h2
      exact List.mem_cons_self _ _
    · rw [if_neg hak] at h
      exact List.mem_cons_of_mem _ (ih h)

theorem mem_keys_updateTable (t : Table) (k k' : List Char) (f : locationData → locationData)
    (h : k' ∈ (updateTable t k f).map Prod.fst) : k' = k ∨ k' ∈ t.map Prod.fst := by
  induction t with
  | nil =>
    simp [updateTable] at h
    exact Or.inl h
  | cons p rest ih =>
    obtain ⟨a, v⟩ := p
    simp only [updateTable] at h
    by_cases hak : a = k
    · rw [if_pos hak] at h
      simp only [List.map_cons, List.mem_cons] at h
      right
      rw [List.map_cons]
      exact List.mem_cons.mpr h
    · rw [if_neg hak] at h
      simp only [List.map_cons, List.mem_cons] at h
      rcases h with h | h
      · right
        rw [List.map_cons]
        exact List.mem_cons.mpr (Or.inl h)
      · rcases ih h with h | h
        · exact Or.inl h
        · right
          rw [List.map_cons]
          exact List.mem_cons.mpr (Or.inr h)

theorem WFTable_updateTable (t : Table) (k : List Char) (f : locationData → locationData)
    (h : WFTable t) : WFTable (updateTable t k f) := by
  revert h
  unfold WFTable
  induction t with
  | nil => intro _; simp [updateTable]
  | cons p rest ih =>
    obtain ⟨a, v⟩ := p
    intro h
    simp only [List.map_cons, List.nodup_cons] at h
    obtain ⟨ha, hrest⟩ := h
    simp only [updateTable]
    by_cases hak : a = k
    · rw [if_pos hak]
      simp only [List.map_cons, List.nodup_cons]
      exact ⟨ha, hrest⟩
    · rw [if_neg hak]
      simp only [List.map_cons, List.nodup_cons]
      refine ⟨fun hmem => ?_, ih hrest⟩
      rcases mem_keys_updateTable rest k a f hmem with h | h
      · exact hak h
      · exact ha h

theorem WFTable_process_line (line : List Char) (t : Table) (h : WFTable t) :
    WFTable (process_line line t) := by
  unfold process_line
  cases hs : splitAtDelim line with
  | none => exact h
  | some p =>
    obtain ⟨loc, valSpan⟩ := p
    exact WFTable_updateTable t loc _ h

theorem WFTable_process_chunk (data : List Char) (e : Nat) :
    ∀ (i : Nat) (t : Table), WFTable t → WFTable (process_chunk data i e t) := by
  have H : ∀ n i t, e - i ≤ n → WFTable t → WFTable (process_chunk data i e t) := by
    intro n
    induction n with
    | zero =>
      intro i t hn ht
      rw [process_chunk_unfold]
      split
      · next h => exact absurd h (by omega)
      · exact ht
    | succ n ih =>
      intro i t hn ht
      rw [process_chunk_unfold]
      split
      · next h =>
        refine ih _ _ ?_ (WFTable_process_line _ _ ht)
        have := scanNewline_ge data e i
        omega
      · exact ht
  intro i t
  exact H (e - i) i t (Nat.le_refl _)

theorem WFTable_mergeTable (w : Table) : ∀ g, WFTable g → WFTable (mergeTable g w) := by
  induction w with
  | nil => intro g hg; exact hg
  | cons kv w ih =>
    intro g hg
    have step : mergeTable g (kv :: w) =
        mergeTable (updateTable g kv.1 (fun cur => mergeStats cur kv.2)) w := rfl
    rw [step]
    exact ih _ (WFTable_updateTable g kv.1 _ hg)

theorem WFTable_mergeAll (ts : List Table) : WFTable (mergeAll ts) := by
  have H : ∀ (ts : List Table) (g : Table), WFTable g → WFTable (ts.foldl mergeTable g) := by
    intro ts
    induction ts with
    | nil => intro g hg; exact hg
    | cons t ts ih => intro g hg; exact ih _ (WFTable_mergeTable t g hg)
  exact H ts [] (by simp [WFTable])

theorem WFTable_runProgram (data : List Char) (N : Nat) : WFTable (runProgram data N) :=
  WFTable_mergeAll _

/-- Every entry of the table carries a positive record count. -/
def countPos (t : Table) : Prop := ∀ p ∈ t, 1 ≤ p.2.count

theorem countPos_updateTable (t : Table) (k : List Char) (f : locationData → locationData)
    (hf : ∀ d, 1 ≤ (f d).count) (ht : countPos t) : countPos (updateTable t k f) := by
  revert ht
  induction t with
  | nil =>
    intro _ p hp
    simp only [updateTable, List.mem_singleton] at hp
    subst hp
    exact hf _
  | cons q rest ih =>
    obtain ⟨a, v⟩ := q
    intro ht p hp
    simp only [updateTable] at hp
    by_cases hak : a = k
    · rw [if_pos hak] at hp
      rcases List.mem_cons.mp hp with h | h
      · subst h; exact hf v
      · exact ht p (List.mem_cons_of_mem _ h)
    · rw [if_neg hak] at hp
      rcases List.mem_cons.mp hp with h | h
      · subst h; exact ht (a, v) (List.mem_cons_self _ _)
      · exact ih (fun q hq => ht q (List.mem_cons_of_mem _ hq)) p h

theorem countPos_process_line (line : List Char) (t : Table) (ht : countPos t) :
    countPos (process_line line t) := by
  unfold process_line
  cases hs : splitAtDelim line with
  | none => exact ht
  | some p =>
    obtain ⟨loc, valSpan⟩ := p
    refine countPos_updateTable t loc _ (fun d => ?_) ht
    rw [updateStats_eq]
    show 1 ≤ d.count + 1
    omega

theorem countPos_process_chunk (data : List Char) (e : Nat) :
    ∀ (i : Nat) (t : Table), countPos t → countPos (process_chunk data i e t) := by
  have H : ∀ n i t, e - i ≤ n → countPos t → countPos (process_chunk data i e t) := by
    intro n
    induction n with
    | zero =>
      intro i t hn ht
      rw [process_chunk_unfold]
      split
      · next h => exact absurd h (by omega)
      · exact ht
    | succ n ih =>
      intro i t hn ht
      rw [process_chunk_unfold]
      split
      · next h =>
        refine ih _ _ ?_ (countPos_process_line _ _ ht)
        have := scanNewline_ge data e i
        omega
      · exact ht
  intro i t
  exact H (e - i) i t (Nat.le_refl _)

theorem countPos_mergeTable (w : Table) :
    ∀ g, countPos g → countPos w → countPos (mergeTable g w) := by
  induction w with
  | nil => intro g hg _; exact hg
  | cons kv w ih =>
    intro g hg hw
    have step : mergeTable g (kv :: w) =
        mergeTable (updateTable g kv.1 (fun cur => mergeStats cur kv.2)) w := rfl
    rw [step]
    have hb : 1 ≤ kv.2.count := hw kv (List.mem_cons_self _ _)
    refine ih _ (countPos_updateTable g kv.1 _ (fun d => ?_) hg)
      (fun q hq => hw q (List.mem_cons_of_mem _ hq))
    rw [mergeStats_eq]
    show 1 ≤ d.count + kv.2.count
    omega

theorem countPos_mergeAll (ts : List Table) (h : ∀ t ∈ ts, countPos t) :
    countPos (mergeAll ts) := by
  have H : ∀ (ts : List Table) (g : Table), countPos g → (∀ t ∈ ts, countPos t) →
      countPos (ts.foldl mergeTable g) := by
    intro ts
    induction ts with
    | nil => intro g hg _; exact hg
    | cons t ts ih =>
      intro g hg hts
      exact ih _ (countPos_mergeTable t g hg (hts t (List.mem_cons_self _ _)))
        (fun u hu => hts u (List.mem_cons_of_mem _ hu))
  exact H ts [] (fun p hp => absurd hp (List.not_mem_nil p)) h

theorem countPos_runProgram (data : List Char) (N : Nat) : countPos (runProgram data N) := by
  refine countPos_mergeAll _ (fun t ht => ?_)
  unfold workerTables at ht
  rcases List.mem_map.mp ht with ⟨r, _, hr⟩
  subst hr
  exact countPos_process_chunk data r.2 r.1 [] (fun p hp => absurd hp (List.not_mem_nil p))

theorem valuesOf_append (rs ss : List Record) (k : List Char) :
    valuesOf (rs ++ ss) k = valuesOf rs k ++ valuesOf ss k := by
  induction rs with
  | nil => rfl
  | cons r rs ih =>
    show valuesOf (r :: (rs ++ ss)) k = valuesOf (r :: rs) k ++ valuesOf ss k
    rw [valuesOf, valuesOf]
    by_cases h : r.1 = k
    · rw [if_pos h, if_pos h, ih, List.cons_append]
    · rw [if_neg h, if_neg h, ih]

theorem valuesOf_perm {rs ss : List Record} (h : rs.Perm ss) (k : List Char) :
    (valuesOf rs k).Perm (valuesOf ss k) := by
  induction h with
  | nil => exact List.Perm.refl _
  | cons r _ ih =>
    simp only [valuesOf]
    by_cases hr : r.1 = k
    · rw [if_pos hr, if_pos hr]
      exact List.Perm.cons _ ih
    · rw [if_neg hr, if_neg hr]
      exact ih
  | swap x y l =>
    simp only [valuesOf]
    split_ifs <;> first
      | exact List.Perm.swap _ _ _
      | exact List.Perm.refl _
  | trans _ _ ih₁ ih₂ => exact ih₁.trans ih₂

theorem valuesOf_flatten (gs : List (List Record)) (k : List Char) :
    valuesOf gs.flatten k = (gs.map (fun g => valuesOf g k)).flatten := by
  induction gs with
  | nil => rfl
  | cons g gs ih =>
    rw [List.flatten_cons, valuesOf_append, ih, List.map_cons, List.flatten_cons]

theorem oMerge_left_comm (o a b : Option locationData) :
    oMerge (oMerge o a) b = oMerge (oMerge o b) a := by
  cases a with
  | none => cases b with
    | none => rfl
    | some B => rfl
  | some A =>
    cases b with
    | none => rfl
    | some B =>
      show some (mergeStats (mergeStats (o.getD locationData.init) A) B) =
        some (mergeStats (mergeStats (o.getD locationData.init) B) A)
      rw [mergeStats_assoc, mergeStats_assoc, mergeStats_comm A B]

theorem oMerge_oStats (a b : List ℚ) : oMerge (oStats a) (oStats b) = oStats (a ++ b) := by
  cases b with
  | nil =>
    rw [List.append_nil]
    rfl
  | cons w ws =>
    cases a with
    | nil =>
      show some (mergeStats locationData.init (statsOf (w :: ws))) =
        some (statsOf (w :: ws))
      rw [mergeStats_init_statsOf]
    | cons v vs =>
      show some (mergeStats (statsOf (v :: vs)) (statsOf (w :: ws))) =
        some (statsOf ((v :: vs) ++ (w :: ws)))
      rw [statsOf_append]

theorem foldl_oUpd_some (vs : List ℚ) : ∀ d : locationData,
    vs.foldl oUpd (some d) = some (vs.foldl (fun d v => updateStats v d) d) := by
  induction vs with
  | nil => intro d; rfl
  | cons v vs ih =>
    intro d
    simp only [List.foldl_cons]
    exact ih _

theorem foldl_oUpd_none (vs : List ℚ) : vs.foldl oUpd none = oStats vs := by
  cases vs with
  | nil => rfl
  | cons v vs =>
    show vs.foldl oUpd (oUpd none v) = oStats (v :: vs)
    have h1 : oUpd none v = some (updateStats v locationData.init) := rfl
    rw [h1, foldl_oUpd_some]
    rfl

theorem lookupKey_foldl_processRecord (rs : List Record) : ∀ (t : Table) (k : List Char),
    lookupKey (rs.foldl processRecord t) k = (valuesOf rs k).foldl oUpd (lookupKey t k) := by
  induction rs with
  | nil => intro t k; rfl
  | cons r rs ih =>
    intro t k
    simp only [List.foldl_cons, valuesOf]
    by_cases h : r.1 = k
    · rw [if_pos h, ih]
      simp only [List.foldl_cons]
      have h2 : lookupKey (processRecord t r) k = oUpd (lookupKey t k) r.2 := by
        show lookupKey (updateTable t r.1 (updateStats r.2)) k = _
        rw [lookupKey_updateTable, if_pos h.symm, h]
        rfl
      rw [h2]
    · rw [if_neg h, ih]
      have h2 : lookupKey (processRecord t r) k = lookupKey t k := by
        show lookupKey (updateTable t r.1 (updateStats r.2)) k = _
        rw [lookupKey_updateTable, if_neg (fun hh => h hh.symm)]
      rw [h2]

theorem lookupKey_aggregate (rs : List Record) (k : List Char) :
    lookupKey (aggregate rs) k = oStats (valuesOf rs k) := by
  unfold aggregate
  rw [lookupKey_foldl_processRecord]
  exact foldl_oUpd_none _

theorem WFTable_aggregate (rs : List Record) : WFTable (aggregate rs) := by
  have H : ∀ (rs : List Record) (t : Table), WFTable t → WFTable (rs.foldl processRecord t) := by
    intro rs
    induction rs with
    | nil => intro t ht; exact ht
    | cons r rs ih => intro t ht; exact ih _ (WFTable_updateTable t r.1 _ ht)
  exact H rs [] (by simp [WFTable])

theorem lookupKey_mergeTable (w : Table) : ∀ (g : Table) (k : List Char), WFTable w →
    lookupKey (mergeTable g w) k = oMerge (lookupKey g k) (lookupKey w k) := by
  induction w with
  | nil => intro g k _; rfl
  | cons kv w ih =>
    intro g k hw
    obtain ⟨a, b⟩ := kv
    have hw' : WFTable w := by
      unfold WFTable at hw ⊢
      rw [List.map_cons] at hw
      exact (List.nodup_cons.mp hw).2
    have ha : a ∉ w.map Prod.fst := by
      unfold WFTable at hw
      rw [List.map_cons] at hw
      exact (List.nodup_cons.mp hw).1
    have step : mergeTable g ((a, b) :: w) =
        mergeTable (updateTable g a (fun cur => mergeStats cur b)) w := rfl
    rw [step, ih _ k hw']
    by_cases hk : a = k
    · subst hk
      rw [lookupKey_eq_none w a ha]
      have h1 : oMerge (lookupKey (updateTable g a (fun cur => mergeStats cur b)) a) none
          = lookupKey (updateTable g a (fun cur => mergeStats cur b)) a := rfl
      rw [h1, lookupKey_updateTable, if_pos rfl]
      have h2 : lookupKey ((a, b) :: w) a = some b := by rw [lookupKey, if_pos rfl]
      rw [h2]
      rfl
    · have h2 : lookupKey ((a, b) :: w) k = lookupKey w k := by rw [lookupKey, if_neg hk]
      rw [h2, lookupKey_updateTable, if_neg (fun hh => hk hh.symm)]

theorem lookupKey_foldl_mergeTable (ts : List Table) : ∀ (g : Table) (k : List Char),
    (∀ t ∈ ts, WFTable t) →
    lookupKey (ts.foldl mergeTable g) k =
      (ts.map (fun t => lookupKey t k)).foldl oMerge (lookupKey g k) := by
  induction ts with
  | nil => intro g k _; rfl
  | cons t ts ih =>
    intro g k hts
    simp only [List.foldl_cons, List.map_cons]
    rw [ih _ k (fun u hu => hts u (List.mem_cons_of_mem _ hu)),
      lookupKey_mergeTable t g k (hts t (List.mem_cons_self _ _))]

theorem lookupKey_mergeAll (ts : List Table) (k : List Char) (h : ∀ t ∈ ts, WFTable t) :
    lookupKey (mergeAll ts) k = (ts.map (fun t => lookupKey t k)).foldl oMerge none := by
  unfold mergeAll
  rw [lookupKey_foldl_mergeTable ts [] k h]
  rfl

theorem foldl_oMerge_oStats (vss : List (List ℚ)) : ∀ acc : List ℚ,
    (vss.map oStats).foldl oMerge (oStats acc) = oStats (acc ++ vss.flatten) := by
  induction vss with
  | nil =>
    intro acc
    rw [List.flatten_nil, List.append_nil]
    rfl
  | cons vs vss ih =>
    intro acc
    simp only [List.map_cons, List.foldl_cons]
    rw [oMerge_oStats, ih, List.flatten_cons, List.append_assoc]

theorem foldl_oMerge_oStats_nil (vss : List (List ℚ)) :
    (vss.map oStats).foldl oMerge none = oStats vss.flatten := by
  have h := foldl_oMerge_oStats vss []
  rw [List.nil_append] at h
  exact h

theorem scanNewline_le (data : List Char) (e : Nat) :
    ∀ i, i ≤ e → scanNewline data e i ≤ e := by
  have H : ∀ n i, e - i ≤ n → i ≤ e → scanNewline data e i ≤ e := by
    intro n
    induction n with
    | zero =>
      intro i hn hi
      rw [scanNewline_unfold]
      split
      · next h => exact absurd h.1 (by omega)
      · exact hi
    | succ n ih =>
      intro i hn hi
      rw [scanNewline_unfold]
      split
      · next h => exact ih (i + 1) (by omega) h.1
      · exact hi
  intro i hi
  exact H (e - i) i (Nat.le_refl _) hi

theorem scanNewline_newline (data : List Char) (e : Nat) :
    ∀ i, scanNewline data e i < e → data.getD (scanNewline data e i) '\n' = '\n' := by
  have H : ∀ n i, e - i ≤ n → scanNewline data e i < e →
      data.getD (scanNewline data e i) '\n' = '\n' := by
    intro n
    induction n with
    | zero =>
      intro i hn hlt
      by_cases h : i < e ∧ data.getD i '\n' ≠ '\n'
      · exact absurd h.1 (by omega)
      · rw [scanNewline_unfold, if_neg h] at hlt ⊢
        by_cases h2 : data.getD i '\n' = '\n'
        · exact h2
        · exact absurd ⟨hlt, h2⟩ h
    | succ n ih =>
      intro i hn hlt
      by_cases h : i < e ∧ data.getD i '\n' ≠ '\n'
      · rw [scanNewline_unfold, if_pos h] at hlt ⊢
        exact ih (i + 1) (by omega) hlt
      · rw [scanNewline_unfold, if_neg h] at hlt ⊢
        by_cases h2 : data.getD i '\n' = '\n'
        · exact h2
        · exact absurd ⟨hlt, h2⟩ h
  intro i
  exact H (e - i) i (Nat.le_refl _)

theorem slice_nil (data : List Char) (i j : Nat) (h : j ≤ i) : slice data i j = [] := by
  unfold slice
  rw [Nat.sub_eq_zero_of_le h, List.take_zero]

theorem slice_cons (data : List Char) (i j : Nat) (hij : i < j) (hlen : i < data.length) :
    slice data i j = data.getD i '\n' :: slice data (i + 1) j := by
  unfold slice
  rw [List.drop_eq_getElem_cons hlen]
  have hj : j - i = (j - (i + 1)) + 1 := by omega
  rw [hj, List.take_succ_cons, List.getD_eq_getElem]

theorem slice_append (data : List Char) (i j e : Nat) (h1 : i ≤ j) (h2 : j ≤ e) :
    slice data i e = slice data i j ++ slice data j e := by
  unfold slice
  have he : e - i = (j - i) + (e - j) := by omega
  rw [he, List.take_add]
  have hd : (data.drop i).drop (j - i) = data.drop j := by
    rw [List.drop_drop]
    congr 1
    omega
  rw [hd]

theorem slice_scanNewline_no_newline (data : List Char) (e : Nat) (hlen : e ≤ data.length) :
    ∀ i, ∀ c ∈ slice data i (scanNewline data e i), c ≠ '\n' := by
  have H : ∀ n i, e - i ≤ n → ∀ c ∈ slice data i (scanNewline data e i), c ≠ '\n' := by
    intro n
    induction n with
    | zero =>
      intro i hn c hc
      by_cases h : i < e ∧ data.getD i '\n' ≠ '\n'
      · exact absurd h.1 (by omega)
      · rw [scanNewline_unfold, if_neg h, slice_nil data i i (Nat.le_refl i)] at hc
        cases hc
    | succ n ih =>
      intro i hn c hc
      by_cases h : i < e ∧ data.getD i '\n' ≠ '\n'
      · rw [scanNewline_unfold, if_pos h] at hc
        have hge : i + 1 ≤ scanNewline data e (i + 1) := scanNewline_ge data e (i + 1)
        have hcons : slice data i (scanNewline data e (i + 1)) =
            data.getD i '\n' :: slice data (i + 1) (scanNewline data e (i + 1)) :=
          slice_cons data i _ (by omega) (by omega)
        rw [hcons] at hc
        rcases List.mem_cons.mp hc with hh | hh
        · rw [hh]
          exact h.2
        · exact ih (i + 1) (by omega) c hh
      · rw [scanNewline_unfold, if_neg h, slice_nil data i i (Nat.le_refl i)] at hc
        cases hc
  intro i
  exact H (e - i) i (Nat.le_refl _)

theorem linesOfContent_single (seg : List Char) (hseg : ∀ c ∈ seg, c ≠ '\n')
    (hne : seg ≠ []) : linesOfContent seg = [seg] := by
  induction seg with
  | nil => exact absurd rfl hne
  | cons c cs ih =>
    rw [linesOfContent]
    have hc : ¬(c = '\n') := hseg c (List.mem_cons_self _ _)
    rw [if_neg hc]
    cases cs with
    | nil => rfl
    | cons d ds =>
      rw [ih (fun x hx => hseg x (List.mem_cons_of_mem _ hx)) (by simp)]

theorem linesOfContent_append (seg rest : List Char) (hseg : ∀ c ∈ seg, c ≠ '\n') :
    linesOfContent (seg ++ '\n' :: rest) = seg :: linesOfContent rest := by
  induction seg with
  | nil =>
    show linesOfContent ('\n' :: rest) = [] :: linesOfContent rest
    rw [linesOfContent, if_pos rfl]
  | cons c cs ih =>
    show linesOfContent (c :: (cs ++ '\n' :: rest)) = (c :: cs) :: linesOfContent rest
    rw [linesOfContent]
    have hc : ¬(c = '\n') := hseg c (List.mem_cons_self _ _)
    rw [if_neg hc, ih (fun x hx => hseg x (List.mem_cons_of_mem _ hx))]

theorem intLoop_digits (ds : List Char) : ∀ (tail : List Char) (acc : ℚ),
    (∀ c ∈ ds, c ≠ '.') → (tail = [] ∨ ∃ fs, tail = '.' :: fs) →
    intLoop (ds ++ tail) acc = (ds.foldl (fun r c => r * 10 + digitVal c) acc, tail) := by
  induction ds with
  | nil =>
    intro tail acc _ htail
    rcases htail with h | ⟨fs, h⟩
    · subst h; rfl
    · subst h
      show intLoop ('.' :: fs) acc = _
      rw [intLoop, if_pos rfl]
      rfl
  | cons d ds ih =>
    intro tail acc hds htail
    show intLoop (d :: (ds ++ tail)) acc = _
    rw [intLoop, if_neg (hds d (List.mem_cons_self _ _))]
    rw [ih tail _ (fun c hc => hds c (List.mem_cons_of_mem _ hc)) htail]
    rfl

theorem foldl_digits (ds : List Char) : ∀ acc : ℚ,
    ds.foldl (fun r c => r * 10 + digitVal c) acc = acc * 10 ^ ds.length + natOfDigits ds := by
  induction ds with
  | nil => intro acc; simp [natOfDigits]
  | cons d ds ih =>
    intro acc
    simp only [List.foldl_cons, List.length_cons]
    have h1 : natOfDigits (d :: ds) =
        ds.foldl (fun r c => r * 10 + digitVal c) (0 * 10 + digitVal d) := rfl
    rw [h1, ih, ih]
    ring

theorem fracLoop_eq (fs : List Char) : ∀ (f acc : ℚ),
    fracLoop fs f acc = acc + f * (natOfDigits fs / 10 ^ fs.length) := by
  induction fs with
  | nil =>
    intro f acc
    show acc = acc + f * (natOfDigits [] / 10 ^ (0 : Nat))
    simp [natOfDigits]
  | cons c fs ih =>
    intro f acc
    rw [fracLoop, ih]
    have h1 : natOfDigits (c :: fs) = digitVal c * 10 ^ fs.length + natOfDigits fs := by
      have h2 : natOfDigits (c :: fs) =
          fs.foldl (fun r c => r * 10 + digitVal c) (0 * 10 + digitVal c) := rfl
      rw [h2, foldl_digits]
      ring
    rw [h1, List.length_cons]
    have h10 : (10 : ℚ) ^ fs.length ≠ 0 := pow_ne_zero _ (by norm_num)
    field_simp
    ring

theorem parse_float_minus (rest : List Char) :
    parse_float ('-' :: rest) =
      some (-(if (intLoop rest 0).2.head? = some '.'
        then fracLoop (intLoop rest 0).2.tail 1 (intLoop rest 0).1
        else (intLoop rest 0).1)) := by
  rw [parse_float]
  simp

theorem parse_float_not_minus (c : Char) (rest : List Char) (hc : ¬(c = '-')) :
    parse_float (c :: rest) =
      some (if (intLoop (c :: rest) 0).2.head? = some '.'
        then fracLoop (intLoop (c :: rest) 0).2.tail 1 (intLoop (c :: rest) 0).1
        else (intLoop (c :: rest) 0).1) := by
  rw [parse_float]
  simp [hc]

theorem parse_body_eq (ds fs tail : List Char)
    (hdot : ∀ c ∈ ds, c ≠ '.')
    (htail : tail = '.' :: fs ∨ (tail = [] ∧ fs = [])) :
    (if (intLoop (ds ++ tail) 0).2.head? = some '.'
      then fracLoop (intLoop (ds ++ tail) 0).2.tail 1 (intLoop (ds ++ tail) 0).1
      else (intLoop (ds ++ tail) 0).1)
      = natOfDigits ds + natOfDigits fs / 10 ^ fs.length := by
  rcases htail with h | ⟨h, hfs⟩
  · subst h
    rw [intLoop_digits ds _ 0 hdot (Or.inr ⟨fs, rfl⟩)]
    dsimp only
    rw [if_pos (show ('.' :: fs).head? = some '.' from rfl), fracLoop_eq]
    show natOfDigits ds + 1 * (natOfDigits fs / 10 ^ fs.length) = _
    rw [one_mul]
  · subst h
    subst hfs
    rw [intLoop_digits ds _ 0 hdot (Or.inl rfl)]
    dsimp only
    rw [if_neg (by simp)]
    show natOfDigits ds = natOfDigits ds + natOfDigits [] / 10 ^ (0 : Nat)
    simp [natOfDigits]

/-- Input buffer of the chunk-boundary counterexample: `AA;123\nB;45\n`. -/
def dataChunkBug : List Char :=
  ['A', 'A', ';', '1', '2', '3', '\n', 'B', ';', '4', '5', '\n']

/-- Input buffer of the report-order counterexample: `B;1\nA;2\n`. -/
def dataReport : List Char := ['B', ';', '1', '\n', 'A', ';', '2', '\n']

/-- Claim C1 (code bug): the spec requires every interior chunk boundary to lie
immediately after a newline byte, but the planner cuts at naive equal-division
points.  On the 12-byte input `AA;123\nB;45\n` with 3 workers it cuts at
bytes 4 and 8, inside the first and second records (byte 3 is `1`, not a
newline); consequently the 3-worker run produces the truncated key set
`AA, ""` while the 1-worker run of the same input produces `AA, B`. -/
theorem chunk_boundary_not_newline_aligned :
    chunkRanges 12 3 = [(0, 4), (4, 8), (8, 12)] ∧
    dataChunkBug.length = 12 ∧
    dataChunkBug.getD 3 '\n' = '1' ∧
    ('1' : Char) ≠ '\n' ∧
    (runProgram dataChunkBug 3).map (fun kv => (kv.1, kv.2.count))
      = [(['A', 'A'], 1), ([], 1)] ∧
    (runProgram dataChunkBug 1).map (fun kv => (kv.1, kv.2.count))
      = [(['A', 'A'], 1), (['B'], 1)] := by
  decide

/-- Claim C2: for every record list and every partition of it into groups
(any interleaving, expressed as a permutation), aggregating each group
independently with the per-record update and then merging the group tables
into the global table yields, for every key, exactly the entry produced by
aggregating the whole record list in one sequential pass. -/
theorem group_aggregate_merge_eq_single_pass (gs : List (List Record)) (rs : List Record)
    (h : rs.Perm gs.flatten) (k : List Char) :
    lookupKey (mergeAll (gs.map aggregate)) k = lookupKey (aggregate rs) k := by
  have hwf : ∀ t ∈ gs.map aggregate, WFTable t := by
    intro t ht
    rcases List.mem_map.mp ht with ⟨g, _, hg⟩
    exact hg ▸ WFTable_aggregate g
  rw [lookupKey_mergeAll _ k hwf, lookupKey_aggregate, List.map_map]
  have hfun : ((fun t => lookupKey t k) ∘ aggregate) = fun g => oStats (valuesOf g k) :=
    funext (fun g => lookupKey_aggregate g k)
  rw [hfun]
  have hform : (gs.map fun g => oStats (valuesOf g k)) =
      (gs.map fun g => valuesOf g k).map oStats := by
    rw [List.map_map]
    rfl
  rw [hform, foldl_oMerge_oStats_nil, ← valuesOf_flatten]
  exact (oStats_perm (valuesOf_perm h k)).symm

/-- Witness for C2: two singleton groups for key `A`, merged, equal the
sequential pass over both records. -/
theorem group_aggregate_merge_eq_single_pass_witness :
    lookupKey (mergeAll ([[(['A'], (1 : ℚ))], [(['A'], 2)]].map aggregate)) ['A']
      = lookupKey (aggregate [(['A'], (1 : ℚ)), (['A'], 2)]) ['A'] :=
  group_aggregate_merge_eq_single_pass [[(['A'], 1)], [(['A'], 2)]]
    [(['A'], 1), (['A'], 2)] (List.Perm.refl _) ['A']

/-- Claim C3 (amended): the report emits exactly one line per distinct key of
the final table — the emitted key list has no duplicates — but in table
iteration order, which is not sorted by key (see the counterexample). -/
theorem report_one_line_per_distinct_key (data : List Char) (N : Nat) :
    (reportKeys (runProgram data N)).Nodup :=
  WFTable_runProgram data N

/-- Counterexample for C3 as stated: on input `B;1\nA;2\n` with one worker
the report lines come out in table iteration order `B, A`, which is not
sorted by key. -/
theorem report_not_sorted :
    reportKeys (runProgram dataReport 1) = [['B'], ['A']] ∧
    ¬ sortedLex (reportKeys (runProgram dataReport 1)) := by
  exact ⟨by decide, by decide⟩

/-- Claim C4 (amended): for every nonempty byte span matching the grammar
(optional leading minus, zero or more integer digits, optional single point,
zero or more fraction digits), `parse_float` returns exactly the value of the
decimal literal, an empty digit sequence before or after the point
contributing `0` (so `.5` parses to `0.5` and `5.` to `5.0`).  The empty span
also matches the grammar but triggers the out-of-bounds read recorded in the
counterexample, hence the nonemptiness hypothesis. -/
theorem parse_float_grammar (neg pt : Bool) (ds fs s : List Char)
    (hds : ∀ c ∈ ds, c.isDigit) (hfs : ∀ c ∈ fs, c.isDigit)
    (hpt : pt = false → fs = [])
    (hs : s = (if neg then ['-'] else []) ++ ds ++ (if pt then '.' :: fs else []))
    (hne : s ≠ []) :
    parse_float s = some (decimalValue neg ds fs) := by
  have hdot : ∀ c ∈ ds, c ≠ '.' := by
    intro c hc h
    subst h
    exact absurd (hds _ hc) (by decide)
  have hdsm : ∀ c ∈ ds, ¬(c = '-') := by
    intro c hc h
    subst h
    exact absurd (hds _ hc) (by decide)
  have htail : (if pt then '.' :: fs else []) = '.' :: fs ∨
      ((if pt then '.' :: fs else []) = [] ∧ fs = []) := by
    cases pt
    · exact Or.inr ⟨rfl, hpt rfl⟩
    · exact Or.inl rfl
  have hbody := parse_body_eq ds fs (if pt then '.' :: fs else []) hdot htail
  cases neg with
  | true =>
    have hs' : s = '-' :: (ds ++ (if pt then '.' :: fs else [])) := by rw [hs]; rfl
    rw [hs', parse_float_minus, hbody]
    show some (-(natOfDigits ds + natOfDigits fs / 10 ^ fs.length)) = _
    unfold decimalValue
    norm_num
  | false =>
    have hs' : s = ds ++ (if pt then '.' :: fs else []) := by rw [hs]; rfl
    cases ds with
    | nil =>
      rw [List.nil_append] at hbody
      rcases htail with h | ⟨h, hfs0⟩
      · have hs'' : s = '.' :: fs := by rw [hs', h]; rfl
        rw [h] at hbody
        rw [hs'', parse_float_not_minus '.' fs (by decide), hbody]
        simp [decimalValue]
      · exact absurd (show s = [] by rw [hs', h]; rfl) hne
    | cons d ds' =>
      have hd : ¬(d = '-') := hdsm d (List.mem_cons_self _ _)
      have hs'' : s = d :: (ds' ++ (if pt then '.' :: fs else [])) := by rw [hs']; rfl
      rw [List.cons_append] at hbody
      rw [hs'', parse_float_not_minus d _ hd, hbody]
      simp [decimalValue]

/-- Witness for C4 at the spans `.5` and `5.`. -/
theorem parse_float_grammar_witness :
    parse_float ['.', '5'] = some (decimalValue false [] ['5']) ∧
    parse_float ['5', '.'] = some (decimalValue false ['5'] []) :=
  ⟨parse_float_grammar false true [] ['5'] ['.', '5'] (by decide) (by decide)
      (fun h => Bool.noConfusion h) rfl (by decide),
    parse_float_grammar false true ['5'] [] ['5', '.'] (by decide) (by decide)
      (fun _ => rfl) rfl (by decide)⟩

/-- Counterexample for C4 as stated: the empty span matches the grammar
(zero digits, no point), so the claim asserts the returned value `0` there,
but `parse_float` reads index 0 before any bounds check (out of bounds,
modelled `none`) and returns no value. -/
theorem parse_float_empty_span_oob :
    grammarMatch [] = true ∧ parse_float [] = none :=
  ⟨rfl, rfl⟩

/-- Claim C5: the per-key merge is commutative and associative, and merging
any permutation of the worker tables into the global table yields the same
per-key `(count, total, min, max)` result. -/
theorem merge_comm_assoc_order_invariant :
    (∀ a b : locationData, mergeStats a b = mergeStats b a) ∧
    (∀ a b c : locationData, mergeStats (mergeStats a b) c = mergeStats a (mergeStats b c)) ∧
    (∀ (ts ts' : List Table), ts.Perm ts' → (∀ t ∈ ts, WFTable t) →
      ∀ k, lookupKey (mergeAll ts) k = lookupKey (mergeAll ts') k) := by
  refine ⟨mergeStats_comm, mergeStats_assoc, ?_⟩
  intro ts ts' hperm hwf k
  have hwf' : ∀ t ∈ ts', WFTable t := fun t ht => hwf t (hperm.mem_iff.mpr ht)
  rw [lookupKey_mergeAll ts k hwf, lookupKey_mergeAll ts' k hwf']
  exact foldl_perm_of_comm oMerge oMerge_left_comm (hperm.map _) none

/-- Witness for C5: swapping two worker tables leaves the merged lookup
unchanged. -/
theorem merge_comm_assoc_order_invariant_witness :
    lookupKey (mergeAll [[(['A'], locationData.mk 1 2 2 2)],
        [(['B'], locationData.mk 1 3 3 3)]]) ['A']
      = lookupKey (mergeAll [[(['B'], locationData.mk 1 3 3 3)],
        [(['A'], locationData.mk 1 2 2 2)]]) ['A'] :=
  merge_comm_assoc_order_invariant.2.2
    [[(['A'], locationData.mk 1 2 2 2)], [(['B'], locationData.mk 1 3 3 3)]]
    [[(['B'], locationData.mk 1 3 3 3)], [(['A'], locationData.mk 1 2 2 2)]]
    (List.Perm.swap _ _ _) (by decide) ['A']

/-- Claim C6: processing a line that contains no `;` delimiter leaves the
aggregation table completely unchanged — no key is created, no count is
incremented, no statistic is modified — and the run continues normally. -/
theorem process_line_no_delimiter_skipped (line : List Char) (t : Table)
    (h : ';' ∉ line) : process_line line t = t := by
  have hsplit : ∀ l : List Char, ';' ∉ l → splitAtDelim l = none := by
    intro l
    induction l with
    | nil => intro _; rfl
    | cons c rest ih =>
      intro hl
      rw [splitAtDelim,
        if_neg (fun hc : c = ';' => hl (by rw [hc]; exact List.mem_cons_self _ _)),
        ih (fun hm => hl (List.mem_cons_of_mem _ hm))]
  unfold process_line
  rw [hsplit line h]

/-- Witness for C6 at line `AB` and the empty table. -/
theorem process_line_no_delimiter_skipped_witness :
    process_line ['A', 'B'] [] = [] :=
  process_line_no_delimiter_skipped ['A', 'B'] [] (by decide)

/-- Claim C7: for every buffer and half-open range `[i, e)` of it,
`process_chunk` hands `process_line` exactly the maximal newline-free
segments of the range, in order: each line extends to the next newline or to
the range end, whichever comes first, the newline byte is excluded and
consumed, and a final line without a trailing newline is still processed. -/
theorem process_chunk_exact_lines (data : List Char) (i e : Nat) (t : Table)
    (hlen : e ≤ data.length) :
    process_chunk data i e t =
      (linesOfContent (slice data i e)).foldl (fun acc l => process_line l acc) t := by
  have H : ∀ (n i : Nat) (t : Table), e - i ≤ n →
      process_chunk data i e t =
        (linesOfContent (slice data i e)).foldl (fun acc l => process_line l acc) t := by
    intro n
    induction n with
    | zero =>
      intro i t hn
      rw [process_chunk_unfold]
      split
      · next h => exact absurd h (by omega)
      · next h =>
        rw [slice_nil data i e (by omega)]
        rfl
    | succ n ih =>
      intro i t hn
      rw [process_chunk_unfold]
      split
      · next h =>
        have hge : i ≤ scanNewline data e i := scanNewline_ge data e i
        have hle : scanNewline data e i ≤ e := scanNewline_le data e i (Nat.le_of_lt h)
        have hnonl : ∀ c ∈ slice data i (scanNewline data e i), c ≠ '\n' :=
          slice_scanNewline_no_newline data e hlen i
        by_cases hje : scanNewline data e i < e
        · have hnl : data.getD (scanNewline data e i) '\n' = '\n' :=
            scanNewline_newline data e i hje
          have hsplit : slice data i e =
              slice data i (scanNewline data e i) ++ slice data (scanNewline data e i) e :=
            slice_append data i _ e hge hle
          have hcons : slice data (scanNewline data e i) e =
              '\n' :: slice data (scanNewline data e i + 1) e := by
            rw [slice_cons data _ e hje (by omega), hnl]
          rw [hsplit, hcons, linesOfContent_append _ _ hnonl, List.foldl_cons]
          exact ih _ _ (by omega)
        · have hje' : scanNewline data e i = e := Nat.le_antisymm hle (Nat.le_of_not_lt hje)
          have hne : slice data i (scanNewline data e i) ≠ [] := by
            rw [slice_cons data i _ (by omega) (by omega)]
            exact List.cons_ne_nil _ _
          rw [ih (scanNewline data e i + 1) _ (by omega),
            slice_nil data (scanNewline data e i + 1) e (by omega)]
          have hie : slice data i e = slice data i (scanNewline data e i) := by rw [hje']
          rw [hie, linesOfContent_single _ hnonl hne]
          rfl
      · next h =>
        rw [slice_nil data i e (by omega)]
        rfl
  exact H (e - i) i t (Nat.le_refl _)

/-- Witness for C7 on the buffer `A;1\n` and the range `[0, 4)`. -/
theorem process_chunk_exact_lines_witness :
    process_chunk ['A', ';', '1', '\n'] 0 4 [] =
      (linesOfContent (slice ['A', ';', '1', '\n'] 0 4)).foldl
        (fun acc l => process_line l acc) [] :=
  process_chunk_exact_lines ['A', ';', '1', '\n'] 0 4 [] (by decide)

/-- Claim C8: for statistics reachable by any sequence of per-record updates
from the initial record `(0, 0, +99, -99)`, the count is positive once a
value has been observed, and `temp_min ≤ v ≤ temp_max` holds for every
observed value `v`. -/
theorem stats_min_le_observed_le_max (vs : List ℚ) (v : ℚ) (hv : v ∈ vs) :
    0 < (statsOf vs).count ∧ (statsOf vs).temp_min ≤ v ∧ v ≤ (statsOf vs).temp_max := by
  refine ⟨?_, ?_, ?_⟩
  · rw [statsOf_count]
    exact List.length_pos_of_mem hv
  · rw [statsOf_min]
    exact foldl_min_le_mem vs 99 v hv
  · rw [statsOf_max]
    exact mem_le_foldl_max vs (-99) v hv

/-- Witness for C8 at the single observation `5`. -/
theorem stats_min_le_observed_le_max_witness :
    0 < (statsOf [(5 : ℚ)]).count ∧ (statsOf [(5 : ℚ)]).temp_min ≤ 5 ∧
      5 ≤ (statsOf [(5 : ℚ)]).temp_max :=
  stats_min_le_observed_le_max [5] 5 (by decide)

/-- Claim C9: every key present in the final global table has count ≥ 1 —
keys are created only together with a count increment, and merging only adds
worker counts that are themselves ≥ 1 — so the report-time average
`total / count` never divides by zero. -/
theorem global_table_count_pos (data : List Char) (N : Nat) (k : List Char)
    (d : locationData) (h : lookupKey (runProgram data N) k = some d) :
    1 ≤ d.count :=
  countPos_runProgram data N (k, d) (lookupKey_mem _ _ _ h)

/-- Witness for C9 on the input `A;1\n` with one worker. -/
theorem global_table_count_pos_witness :
    1 ≤ ((lookupKey (runProgram ['A', ';', '1', '\n'] 1) ['A']).getD
      locationData.init).count :=
  global_table_count_pos ['A', ';', '1', '\n'] 1 ['A'] _ rfl

/-- Claim C10: `parse_float` stays within `[0, len)` exactly on spans of
length at least 1: on a nonempty span every read is of a list element and a
value is returned, while on the empty span the minus-sign check reads index 0
before any bound is consulted (out of bounds, modelled `none`), so a value
field of length zero is outside the function's safe domain. -/
theorem parse_float_inbounds_iff_nonempty :
    (∀ s : List Char, s ≠ [] → (parse_float s).isSome = true) ∧
    parse_float [] = none := by
  refine ⟨?_, rfl⟩
  intro s hs
  cases s with
  | nil => exact absurd rfl hs
  | cons c rest => rfl

/-- Witness for C10 at the span `1`. -/
theorem parse_float_inbounds_iff_nonempty_witness :
    (parse_float ['1']).isSome = true :=
  parse_float_inbounds_iff_nonempty.1 ['1'] (by decide)

end OneBRC
